import Mathlib

/-!
Verification of the `gef::sparse_array` slot store (sparse_array.hpp) and the
parts of `gef::option` (option.hpp) it relies on, as a shallow embedding.

Modelling conventions:
* `gef::option<T>` (a tagged union: `m_is_some` flag plus in-place payload) is
  modelled by Lean's `Option T`; its operations `set`, `reset`, `has_value`
  are `opt_set`, `opt_reset`, `opt_has_value` below.
* `std::vector<gef::option<T>> data_vec` is a `List (Option T)`.
* `std::vector<size_t> alive_vec` is a `List Nat` for its contents, plus an
  explicit field `alive_cap` for the vector's allocated capacity, because
  `sparse_array::capacity()` returns `alive_vec.capacity()`.  `reserve(n)`
  sets the capacity to `max cap n`; `emplace_back` on a full vector grows the
  capacity to `len + max len 1` (the mainstream doubling policy).
* Operations whose C++ execution is undefined (out-of-bounds `operator[]`,
  `value_unchecked` on an empty option, `vector::erase` past the end) return
  `none` in the model: fallible code returns `Option`.
* `sparse_array::erase_at` erases from `alive_vec` inside a range-`for` loop
  whose end pointer was captured before the first erase.  On real
  implementations the buffer memory is left in place when the vector shrinks,
  so the loop keeps reading the original `length` positions of the buffer
  while `erase` shifts elements left inside the logical prefix and the
  positions at and beyond the logical size retain stale copies.  The model
  makes this explicit: the buffer is a function `Nat → Nat` read at positions
  `0..n0-1` (`n0` = length at entry), `memErase` performs the shift, and an
  erase at a position not strictly below the current logical size is
  undefined behaviour (`none`).
-/

namespace Gef

/-- `gef::option<T>::set(args...)` (option.hpp lines 145-155): `reset()`
(destroy the occupant if any), then construct the new payload in place and
return it.  On `Option T` this is: the slot now holds exactly the new value. -/
def opt_set {T : Type} (_o : Option T) (v : T) : Option T :=
  some v

/-- `gef::option<T>::reset()` (option.hpp lines 169-174): destroy the payload
if one is present, mark the slot empty; a no-op on an empty slot. -/
def opt_reset {T : Type} (_o : Option T) : Option T :=
  none

/-- `gef::option<T>::has_value()` (option.hpp line 176). -/
def opt_has_value {T : Type} (o : Option T) : Bool :=
  o.isSome

/-- `std::vector<gef::option<T>>::resize(n)`: keep the first `n` elements,
default-construct (empty option) any new tail elements. -/
def listResize {T : Type} (l : List (Option T)) (n : Nat) : List (Option T) :=
  l.take n ++ List.replicate (n - l.length) none

/-- Capacity of a `std::vector` after `emplace_back` when `len` elements were
stored in a buffer of capacity `cap`: unchanged if there is room, otherwise
grown to `len + max len 1` (libstdc++ `_M_check_len(1)`). -/
def pushCap (len cap : Nat) : Nat :=
  if len < cap then cap else len + max len 1

/-- The state of a `gef::sparse_array<T>` (sparse_array.hpp lines 298-418):
`data_vec` and `alive_vec` are the two member vectors; `alive_cap` is the
allocated capacity of `alive_vec`, which `capacity()` reports. -/
structure sparse_array (T : Type) where
  data_vec : List (Option T)
  alive_vec : List Nat
  alive_cap : Nat
  deriving Repr, DecidableEq

namespace sparse_array

variable {T : Type}

/-- `sparse_array()` (line 307): both vectors empty, no reservation. -/
def init : sparse_array T :=
  { data_vec := [], alive_vec := [], alive_cap := 0 }

/-- `resize(new_capacity)` (lines 315-318): `data_vec.resize(new_capacity)`
and `alive_vec.reserve(new_capacity)` (capacity becomes `max` of old and
requested; contents untouched). -/
def resize (s : sparse_array T) (new_capacity : Nat) : sparse_array T :=
  { data_vec := listResize s.data_vec new_capacity
    alive_vec := s.alive_vec
    alive_cap := max s.alive_cap new_capacity }

/-- `sparse_array(size)` (lines 309-311): default-construct, then `resize`. -/
def initSized (size : Nat) : sparse_array T :=
  init.resize size

/-- `at(index)` (lines 320-322): `data_vec[index].value_unchecked()`.
`none` stands for undefined behaviour: `index` out of bounds or slot empty. -/
def at? (s : sparse_array T) (index : Nat) : Option T :=
  s.data_vec.getD index none

/-- `capacity()` (lines 411-413): `alive_vec.capacity()`. -/
def capacity (s : sparse_array T) : Nat :=
  s.alive_cap

/-- `size()` (lines 415-417): `alive_vec.size()`. -/
def size (s : sparse_array T) : Nat :=
  s.alive_vec.length

/-- `emplace_at(index, args...)` (lines 328-335):
`alive_vec.emplace_back(index)` (append, growing the capacity if full), then
`data_vec[index].set(args...)`, returning the constructed payload.  `none`
stands for the undefined `data_vec[index]` when `index` is out of bounds.
The returned reference is the second component. -/
def emplace_at (s : sparse_array T) (index : Nat) (v : T) :
    Option (sparse_array T × T) :=
  if index < s.data_vec.length then
    some ({ data_vec := s.data_vec.set index (opt_set (s.data_vec.getD index none) v)
            alive_vec := s.alive_vec ++ [index]
            alive_cap := pushCap s.alive_vec.length s.alive_cap }, v)
  else none

/-- First empty slot of `data_vec` at or after offset `acc`: the scan loop of
`next_empty_index` (lines 343-347), where the returned value is the pointer
difference `&item - &data_vec[0]`. -/
def findFirstEmpty : List (Option T) → Nat → Option Nat
  | [], _ => none
  | none :: _, acc => some acc
  | some _ :: rest, acc => findFirstEmpty rest (acc + 1)

/-- `next_empty_index()` (lines 337-350): return `nullopt` when
`size() == capacity()`, otherwise scan `data_vec` in increasing index order
for the first empty slot; `nullopt` when the scan finds none. -/
def next_empty_index (s : sparse_array T) : Option Nat :=
  if s.size = s.capacity then none
  else findFirstEmpty s.data_vec 0

/-- One `alive_vec.erase(begin() + p)` on a buffer `mem` holding `sz` logical
elements: positions below `p` are untouched, positions `p ≤ q` with
`q + 1 < sz` receive the element shifted down from `q + 1`, and positions
from `sz - 1` on keep their old (now stale) contents. -/
def memErase (mem : Nat → Nat) (sz p : Nat) : Nat → Nat :=
  fun q => if q < p then mem q else if q + 1 < sz then mem (q + 1) else mem q

/-- The range-`for` of `erase_at` (lines 354-358): `p` is the loop pointer,
`sz` the current logical size of `alive_vec`, and `fuel` the number of
positions left until the end pointer captured at loop entry (the loop
starts with `p = 0` and `fuel = n0`, the length before any erase, and each
iteration advances `p` and consumes one unit of fuel, so the loop stops
exactly when the captured end pointer `n0 = p + fuel` is reached).  A match
erases at position `p`; an erase at `p ≥ sz` is `vector::erase` at or past
`end()`: undefined behaviour, `none`. -/
def eraseLoop (index : Nat) : Nat → (Nat → Nat) → Nat → Nat →
    Option ((Nat → Nat) × Nat)
  | 0, mem, sz, _ => some (mem, sz)
  | fuel + 1, mem, sz, p =>
    if mem p = index then
      if p < sz then
        eraseLoop index fuel (memErase mem sz p) (sz - 1) (p + 1)
      else none
    else
      eraseLoop index fuel mem sz (p + 1)

/-- `erase_at(index)` (lines 352-361): run the scan-and-erase loop over
`alive_vec`, then `data_vec[index].reset()`.  `none` stands for undefined
behaviour (an erase past the logical end inside the loop, or `index` out of
bounds of `data_vec`). -/
def erase_at (s : sparse_array T) (index : Nat) : Option (sparse_array T) :=
  match eraseLoop index s.alive_vec.length (fun q => s.alive_vec.getD q 0)
      s.alive_vec.length 0 with
  | none => none
  | some (mem, sz) =>
    if index < s.data_vec.length then
      some { data_vec := s.data_vec.set index
               (opt_reset (s.data_vec.getD index none))
             alive_vec := (List.range sz).map mem
             alive_cap := s.alive_cap }
    else none

/-- The single pass of `std::erase_if(alive_vec, λ)` (lines 367-376): the
lambda is applied to each element of `alive_vec` in order, exactly once; on
`at(index)` returning true it resets `data_vec[index]` and drops the entry,
otherwise the entry is kept (relative order preserved).  The result carries
the final `data_vec`, the kept indices, and the trace of
`(index, payload)` pairs the predicate was evaluated on, in evaluation
order.  `none` stands for the undefined `at(index)` on an empty or
out-of-bounds slot. -/
def eraseIfGo (p : T → Bool) (data : List (Option T)) :
    List Nat → Option (List (Option T) × List Nat × List (Nat × T))
  | [] => some (data, [], [])
  | i :: rest =>
    match data.getD i none with
    | none => none
    | some v =>
      if p v then
        (eraseIfGo p (data.set i (opt_reset (data.getD i none))) rest).map
          (fun x => (x.1, x.2.1, (i, v) :: x.2.2))
      else
        (eraseIfGo p data rest).map
          (fun x => (x.1, i :: x.2.1, (i, v) :: x.2.2))

/-- `erase_if(f)` (lines 363-377): `std::erase_if` over `alive_vec` with the
payload-resetting lambda.  Returns the new state and the evaluation trace. -/
def erase_if (s : sparse_array T) (p : T → Bool) :
    Option (sparse_array T × List (Nat × T)) :=
  match eraseIfGo p s.data_vec s.alive_vec with
  | none => none
  | some (d, ks, tr) =>
    some ({ data_vec := d, alive_vec := ks, alive_cap := s.alive_cap }, tr)

/-- The loop of `for_each(f)` (lines 383-385): visit each entry of
`alive_vec` in order, calling `f` on `(at(index), index)`; `f` may mutate
the payload through the reference, modelled by writing `f v i` back into the
slot.  Returns the final `data_vec` and the trace of `(payload, index)`
arguments in call order.  `none` stands for the undefined `at(index)` on an
empty or out-of-bounds slot. -/
def forEachGo (f : T → Nat → T) (data : List (Option T)) :
    List Nat → Option (List (Option T) × List (T × Nat))
  | [] => some (data, [])
  | i :: rest =>
    match data.getD i none with
    | none => none
    | some v =>
      (forEachGo f (data.set i (some (f v i))) rest).map
        (fun x => (x.1, (v, i) :: x.2))

/-- `for_each(f)` (lines 379-386). -/
def for_each (s : sparse_array T) (f : T → Nat → T) :
    Option (sparse_array T × List (T × Nat)) :=
  match forEachGo f s.data_vec s.alive_vec with
  | none => none
  | some (d, tr) =>
    some ({ data_vec := d, alive_vec := s.alive_vec, alive_cap := s.alive_cap }, tr)

/-- `clear()` (lines 402-409): `alive_vec.clear()` (size 0, capacity kept)
and `reset()` on every slot of `data_vec`. -/
def clear (s : sparse_array T) : sparse_array T :=
  { data_vec := s.data_vec.map opt_reset
    alive_vec := []
    alive_cap := s.alive_cap }

end sparse_array

namespace sparse_array

variable {T : Type}

/-! ### Reading a logical vector back from the buffer model -/

/-- Reading the whole buffer of a vector gives back its contents. -/
theorem range_map_getD (l : List Nat) (d : Nat) :
    (List.range l.length).map (fun q => l.getD q d) = l := by
  apply List.ext_getElem
  · simp
  · intro i h1 h2
    simp only [List.getElem_map, List.getElem_range]
    exact List.getD_eq_getElem l d h2

/-- The logical contents after one in-loop `vector::erase` at position `p`
are the old logical contents with the element at position `p` removed. -/
theorem memErase_range (mem : Nat → Nat) (sz p : Nat) (hp : p < sz) :
    (List.range (sz - 1)).map (memErase mem sz p)
      = ((List.range sz).map mem).eraseIdx p := by
  apply List.ext_getElem
  · simp [List.length_eraseIdx_of_lt, hp]
  · intro i h1 h2
    simp only [List.length_map, List.length_range] at h1
    simp only [List.getElem_map, List.getElem_range, memErase]
    rcases Nat.lt_or_ge i p with hip | hip
    · rw [List.getElem_eraseIdx_of_lt _ _ _ _ hip]
      simp [hip, List.getElem_map, List.getElem_range]
    · rw [List.getElem_eraseIdx_of_ge _ _ _ _ hip]
      have h3 : ¬ i < p := Nat.not_lt.mpr hip
      have h4 : i + 1 < sz := by omega
      simp [h3, h4, List.getElem_map, List.getElem_range]

/-- Removing a position that does not hold `j` keeps the count of `j`. -/
theorem count_eraseIdx_of_ne {l : List Nat} {p j : Nat} (hp : p < l.length)
    (hne : l.get ⟨p, hp⟩ ≠ j) : (l.eraseIdx p).count j = l.count j := by
  have hsplit : l = l.take p ++ l.get ⟨p, hp⟩ :: l.drop (p + 1) := by
    rw [List.get_eq_getElem, ← List.drop_eq_getElem_cons hp, List.take_append_drop]
  rw [List.eraseIdx_eq_take_drop_succ]
  conv_rhs => rw [hsplit]
  rw [List.count_append, List.count_append,
    List.count_cons_of_ne (fun h => hne h.symm)]

/-! ### The erase loop of `erase_at` -/

/-- If no position from `p` up to the captured end holds `index`, the loop
leaves the vector untouched. -/
theorem eraseLoop_no_match (index : Nat) :
    ∀ (fuel p : Nat) (mem : Nat → Nat) (sz : Nat),
      (∀ q, p ≤ q → q < p + fuel → mem q ≠ index) →
      eraseLoop index fuel mem sz p = some (mem, sz) := by
  intro fuel
  induction fuel with
  | zero =>
    intro p mem sz _
    rfl
  | succ fuel ih =>
    intro p mem sz h
    have hne : mem p ≠ index := h p (Nat.le_refl p) (by omega)
    rw [eraseLoop, if_neg hne]
    exact ih (p + 1) mem sz (fun q hq1 hq2 => h q (by omega) (by omega))

/-- If `index` sits at exactly one position `p0` of the scanned range, the
loop performs exactly one erase, at `p0`. -/
theorem eraseLoop_unique (index : Nat) :
    ∀ (fuel p p0 : Nat) (mem : Nat → Nat) (sz : Nat),
      p ≤ p0 → p0 < sz → sz ≤ p + fuel → mem p0 = index →
      (∀ q, p ≤ q → q < p + fuel → q ≠ p0 → mem q ≠ index) →
      eraseLoop index fuel mem sz p = some (memErase mem sz p0, sz - 1) := by
  intro fuel
  induction fuel with
  | zero =>
    intro p p0 mem sz hpp0 hp0sz hszn0 _ _
    omega
  | succ fuel ih =>
    intro p p0 mem sz hpp0 hp0sz hszn0 hp0 h
    by_cases hpp : p = p0
    · subst hpp
      have hpsz : p < sz := hp0sz
      rw [eraseLoop, if_pos hp0, if_pos hpsz]
      apply eraseLoop_no_match index fuel (p + 1)
      intro q hq1 hq2
      unfold memErase
      have hq3 : ¬ q < p := by omega
      by_cases hq4 : q + 1 < sz
      · simp only [hq3, if_neg, hq4, if_pos]
        exact h (q + 1) (by omega) (by omega) (by omega)
      · simp only [hq3, if_neg, hq4]
        exact h q (by omega) (by omega) (by omega)
    · have hne : mem p ≠ index := h p (Nat.le_refl p) (by omega) hpp
      rw [eraseLoop, if_neg hne]
      exact ih (p + 1) p0 mem sz (by omega) hp0sz (by omega) hp0
        (fun q hq1 hq2 hq3 => h q (by omega) (by omega) hq3)

/-- Whatever the loop does, every element it erases equals `index`, so the
count of any other value in the logical contents is preserved. -/
theorem eraseLoop_count (index j : Nat) (hj : j ≠ index) :
    ∀ (fuel p : Nat) (mem : Nat → Nat) (sz : Nat) (mem' : Nat → Nat) (sz' : Nat),
      eraseLoop index fuel mem sz p = some (mem', sz') →
      ((List.range sz').map mem').count j = ((List.range sz).map mem).count j := by
  intro fuel
  induction fuel with
  | zero =>
    intro p mem sz mem' sz' heq
    simp only [eraseLoop, Option.some.injEq, Prod.mk.injEq] at heq
    rw [heq.1, heq.2]
  | succ fuel ih =>
    intro p mem sz mem' sz' heq
    rw [eraseLoop] at heq
    by_cases hmatch : mem p = index
    · rw [if_pos hmatch] at heq
      by_cases hpsz : p < sz
      · rw [if_pos hpsz] at heq
        have step := ih (p + 1) (memErase mem sz p) (sz - 1) mem' sz' heq
        rw [step, memErase_range mem sz p hpsz]
        apply count_eraseIdx_of_ne (by simp [hpsz] : p < ((List.range sz).map mem).length)
        intro hgp
        apply hj
        rw [List.get_eq_getElem] at hgp
        simp only [List.getElem_map, List.getElem_range] at hgp
        rw [← hgp, hmatch]
      · rw [if_neg hpsz] at heq
        exact absurd heq (by simp)
    · rw [if_neg hmatch] at heq
      exact ih (p + 1) mem sz mem' sz' heq

/-- When `index` occurs at most once in `alive_vec` and is a valid slot,
`erase_at` is defined and behaves as removing the (possible) occurrence from
the index list and resetting the slot. -/
theorem erase_at_eq (s : sparse_array T) (index : Nat)
    (hc : s.alive_vec.count index ≤ 1) (hlen : index < s.data_vec.length) :
    s.erase_at index = some
      { data_vec := s.data_vec.set index none
        alive_vec := s.alive_vec.erase index
        alive_cap := s.alive_cap } := by
  by_cases hmem : index ∈ s.alive_vec
  · obtain ⟨l₁, l₂, hl⟩ := List.append_of_mem hmem
    unfold erase_at
    rw [hl] at hc ⊢
    have hc1 : List.count index l₁ = 0 := by
      simp [List.count_append] at hc; omega
    have hc2 : List.count index l₂ = 0 := by
      simp [List.count_append] at hc; omega
    have hnm1 : index ∉ l₁ := List.count_eq_zero.mp hc1
    have hnm2 : index ∉ l₂ := List.count_eq_zero.mp hc2
    have hgetp0 : (l₁ ++ index :: l₂).getD l₁.length 0 = index := by
      rw [List.getD_append_right _ _ _ _ (Nat.le_refl _)]
      simp
    have hget : ∀ q, q < (l₁ ++ index :: l₂).length → q ≠ l₁.length →
        (l₁ ++ index :: l₂).getD q 0 ≠ index := by
      intro q hq hqp hcontra
      rcases Nat.lt_or_ge q l₁.length with h | h
      · rw [List.getD_append _ _ _ _ h] at hcontra
        rw [List.getD_eq_getElem _ _ h] at hcontra
        exact hnm1 (hcontra ▸ List.getElem_mem h)
      · rw [List.getD_append_right _ _ _ _ h] at hcontra
        have h3 : q - l₁.length = (q - l₁.length - 1) + 1 := by omega
        rw [h3, List.getD_cons_succ] at hcontra
        have h4 : q - l₁.length - 1 < l₂.length := by
          simp at hq; omega
        rw [List.getD_eq_getElem _ _ h4] at hcontra
        exact hnm2 (hcontra ▸ List.getElem_mem h4)
    rw [eraseLoop_unique index (l₁ ++ index :: l₂).length 0 l₁.length
      (fun q => (l₁ ++ index :: l₂).getD q 0) (l₁ ++ index :: l₂).length
      (by omega) (by simp) (by omega) hgetp0
      (fun q _ hq2 hq3 => hget q (by omega) hq3)]
    simp only [hlen, if_pos]
    have hlogical :
        (List.range ((l₁ ++ index :: l₂).length - 1)).map
            (memErase (fun q => (l₁ ++ index :: l₂).getD q 0)
              (l₁ ++ index :: l₂).length l₁.length)
          = (l₁ ++ index :: l₂).erase index := by
      rw [memErase_range _ _ _ (by simp), range_map_getD,
        List.eraseIdx_eq_take_drop_succ, List.take_left,
        List.erase_append_right _ hnm1, List.erase_cons_head]
      have hdrop : (l₁ ++ index :: l₂).drop (l₁.length + 1) = l₂ := by
        rw [List.drop_append 1]
        rfl
      rw [hdrop]
    rw [hlogical]
    rfl
  · unfold erase_at
    have hget : ∀ q, 0 ≤ q → q < s.alive_vec.length →
        s.alive_vec.getD q 0 ≠ index := by
      intro q _ hq hcontra
      rw [List.getD_eq_getElem _ _ hq] at hcontra
      exact hmem (hcontra ▸ List.getElem_mem hq)
    rw [eraseLoop_no_match index s.alive_vec.length 0
      (fun q => s.alive_vec.getD q 0) s.alive_vec.length
      (fun q hq1 hq2 => hget q hq1 (by omega))]
    simp only [hlen, if_pos]
    rw [range_map_getD, List.erase_of_not_mem hmem]
    rfl

/-- Whenever `erase_at` runs to completion, the count of every other index in
`alive_vec` is preserved, and every other slot keeps its payload. -/
theorem erase_at_frame (s : sparse_array T) (k j : Nat) (hjk : j ≠ k)
    (s' : sparse_array T) (h : s.erase_at k = some s') :
    s'.alive_vec.count j = s.alive_vec.count j ∧
    s'.data_vec.getD j none = s.data_vec.getD j none ∧
    s'.alive_cap = s.alive_cap := by
  unfold erase_at at h
  rcases heq : eraseLoop k s.alive_vec.length (fun q => s.alive_vec.getD q 0)
      s.alive_vec.length 0 with _ | ⟨mem', sz'⟩
  · rw [heq] at h; exact absurd h (by simp)
  · rw [heq] at h
    by_cases hk : k < s.data_vec.length
    · simp only [hk, if_pos, Option.some.injEq] at h
      have hcount := eraseLoop_count k j hjk
        s.alive_vec.length 0 (fun q => s.alive_vec.getD q 0) s.alive_vec.length
        mem' sz' heq
      rw [range_map_getD] at hcount
      refine ⟨?_, ?_, ?_⟩
      · rw [← h]; exact hcount
      · rw [← h]
        simp only
        rcases Nat.lt_or_ge j s.data_vec.length with hj | hj
        · rw [List.getD_eq_getElem _ _ (by simpa using hj),
            List.getD_eq_getElem _ _ hj]
          simp [List.getElem_set_ne (fun hh => hjk hh.symm)]
        · rw [List.getD_eq_default _ _ (by simpa using hj),
            List.getD_eq_default _ _ hj]
      · rw [← h]
    · simp [hk] at h

/-! ### `getD`/`set`/`countP` helpers for the slot vector -/

theorem getD_isSome_lt {l : List (Option T)} {i : Nat}
    (h : (l.getD i none).isSome = true) : i < l.length := by
  by_contra hc
  rw [List.getD_eq_default _ _ (by omega)] at h
  simp at h

theorem getD_set_self {l : List (Option T)} {i : Nat} (x : Option T)
    (h : i < l.length) : (l.set i x).getD i none = x := by
  rw [List.getD_eq_getElem _ _ (by simpa using h)]
  simp

theorem getD_set_ne {l : List (Option T)} {i j : Nat} (x : Option T)
    (h : i ≠ j) : (l.set i x).getD j none = l.getD j none := by
  rcases Nat.lt_or_ge j l.length with hj | hj
  · rw [List.getD_eq_getElem _ _ (by simpa using hj), List.getD_eq_getElem _ _ hj]
    exact List.getElem_set_ne h _
  · rw [List.getD_eq_default _ _ (by simpa using hj), List.getD_eq_default _ _ hj]

theorem getD_replicate_none (c i : Nat) :
    (List.replicate c (none : Option T)).getD i none = none := by
  rcases Nat.lt_or_ge i c with hi | hi
  · rw [List.getD_eq_getElem _ _ (by simpa using hi)]
    simp
  · rw [List.getD_eq_default _ _ (by simpa using hi)]

theorem countP_set (p : Option T → Bool) :
    ∀ (l : List (Option T)) (i : Nat) (x : Option T) (h : i < l.length),
      (l.set i x).countP p + (if p (l.get ⟨i, h⟩) then 1 else 0)
        = l.countP p + (if p x then 1 else 0) := by
  intro l
  induction l with
  | nil => intro i x h; simp at h
  | cons a l ih =>
    intro i x h
    cases i with
    | zero =>
      simp only [List.set_cons_zero, List.countP_cons, List.get_eq_getElem,
        List.getElem_cons_zero]
      omega
    | succ i =>
      have hi : i < l.length := by simpa using h
      simp only [List.set_cons_succ, List.countP_cons, List.get_eq_getElem,
        List.getElem_cons_succ]
      have := ih i x hi
      simp only [List.get_eq_getElem] at this
      omega

/-! ### The liveness invariant and operation sequences -/

/-- The liveness invariant of the spec: `alive_vec` is duplicate-free, an
index is in it exactly when its slot is occupied, and `size()` equals the
number of occupied slots. -/
def Inv (s : sparse_array T) : Prop :=
  s.alive_vec.Nodup ∧
  (∀ i : Nat, i ∈ s.alive_vec ↔ (s.data_vec.getD i none).isSome = true) ∧
  s.size = s.data_vec.countP (fun o => o.isSome)

/-- A public mutating call on the store: `emplace_at` or `erase_at`. -/
inductive Op (T : Type) where
  | emplaceOp (i : Nat) (v : T)
  | eraseOp (i : Nat)
  deriving Repr, DecidableEq

/-- Execute one call (discarding `emplace_at`'s returned reference). -/
def step (s : sparse_array T) : Op T → Option (sparse_array T)
  | .emplaceOp i v => (s.emplace_at i v).map Prod.fst
  | .eraseOp i => s.erase_at i

/-- Execute a sequence of calls. -/
def run (s : sparse_array T) : List (Op T) → Option (sparse_array T)
  | [] => some s
  | op :: rest =>
    match step s op with
    | none => none
    | some s' => run s' rest

/-- The discipline of the claim: every call targets an in-capacity slot index
and `emplace_at` never targets an index that is currently live. -/
def validOp (s : sparse_array T) : Op T → Bool
  | .emplaceOp i _ => decide (i < s.data_vec.length) && decide (i ∉ s.alive_vec)
  | .eraseOp i => decide (i < s.data_vec.length)

/-- The discipline extended along a whole call sequence. -/
def validOps (s : sparse_array T) : List (Op T) → Bool
  | [] => true
  | op :: rest =>
    validOp s op && (step s op).elim false (fun s' => validOps s' rest)

theorem Inv_initSized (c : Nat) : Inv (initSized (T := T) c) := by
  have hdata : (initSized (T := T) c).data_vec = List.replicate c none := by
    simp [initSized, init, resize, listResize]
  refine ⟨List.nodup_nil, ?_, ?_⟩
  · intro i
    rw [hdata]
    simp [initSized, init, resize, getD_replicate_none]
  · rw [hdata]
    have : (List.replicate c (none : Option T)).countP (fun o => o.isSome) = 0 := by
      rw [List.countP_eq_zero]
      intro a ha
      rw [List.eq_of_mem_replicate ha]
      simp
    rw [this]
    rfl

/-- `emplace_at` on a fresh in-capacity index succeeds and preserves the
liveness invariant. -/
theorem Inv_emplace (s : sparse_array T) (i : Nat) (v : T) (hInv : Inv s)
    (hlen : i < s.data_vec.length) (hni : i ∉ s.alive_vec) :
    ∃ s', s.emplace_at i v = some (s', v) ∧ Inv s' ∧
      s'.alive_vec = s.alive_vec ++ [i] ∧
      s'.data_vec = s.data_vec.set i (some v) := by
  obtain ⟨hnd, hmem, hcnt⟩ := hInv
  have hslot : s.data_vec.getD i none = none := by
    rcases hres : s.data_vec.getD i none with _ | w
    · rfl
    · exact absurd (hni ((hmem i).mpr (by rw [hres]; rfl))) not_false
  refine ⟨{ data_vec := s.data_vec.set i (some v)
            alive_vec := s.alive_vec ++ [i]
            alive_cap := pushCap s.alive_vec.length s.alive_cap },
    ?_, ⟨?_, ?_, ?_⟩, rfl, rfl⟩
  · unfold emplace_at
    rw [if_pos hlen]
    rfl
  · simp only [List.nodup_append, List.nodup_cons, List.nodup_nil]
    refine ⟨hnd, by simp, ?_⟩
    intro a ha hb
    simp only [List.mem_singleton] at hb
    exact hni (hb ▸ ha)
  · intro j
    simp only [List.mem_append, List.mem_singleton]
    by_cases hji : j = i
    · subst hji
      rw [getD_set_self _ hlen]
      simp
    · rw [getD_set_ne _ (fun h => hji h.symm)]
      simp [hji, hmem j]
  · have hget : s.data_vec.get ⟨i, hlen⟩ = none := by
      rw [← hslot, List.getD_eq_getElem _ _ hlen]
      rfl
    have hcp := countP_set (fun o => o.isSome) s.data_vec i (some v) hlen
    rw [hget] at hcp
    rw [if_neg (by simp : ¬ ((none : Option T).isSome = true)),
      if_pos (by simp : ((some v).isSome = true))] at hcp
    simp only [size, List.length_append, List.length_singleton] at *
    omega

/-- `erase_at` on an in-capacity index succeeds under the invariant and
preserves it. -/
theorem Inv_erase (s : sparse_array T) (i : Nat) (hInv : Inv s)
    (hlen : i < s.data_vec.length) :
    ∃ s', s.erase_at i = some s' ∧ Inv s' ∧
      s'.alive_vec = s.alive_vec.erase i ∧
      s'.data_vec = s.data_vec.set i none := by
  obtain ⟨hnd, hmem, hcnt⟩ := hInv
  have hc : s.alive_vec.count i ≤ 1 := List.nodup_iff_count_le_one.mp hnd i
  refine ⟨_, erase_at_eq s i hc hlen, ⟨hnd.erase i, ?_, ?_⟩, rfl, rfl⟩
  · intro j
    rw [hnd.mem_erase_iff]
    by_cases hji : j = i
    · subst hji
      rw [getD_set_self _ hlen]
      simp
    · rw [getD_set_ne _ (fun h => hji h.symm)]
      simp [hji, hmem j]
  · have hcp := countP_set (fun o => o.isSome) s.data_vec i none hlen
    rw [if_neg (by simp : ¬ ((none : Option T).isSome = true))] at hcp
    by_cases hi : i ∈ s.alive_vec
    · have hlenerase : (s.alive_vec.erase i).length = s.alive_vec.length - 1 :=
        List.length_erase_of_mem hi
      have hsome : (s.data_vec.getD i none).isSome = true := (hmem i).mp hi
      have hget : (s.data_vec.get ⟨i, hlen⟩).isSome = true := by
        rw [List.get_eq_getElem, ← List.getD_eq_getElem s.data_vec none hlen]
        exact hsome
      rw [if_pos hget] at hcp
      have hpos : 0 < s.alive_vec.length := List.length_pos_of_mem hi
      simp only [size] at *
      omega
    · rw [List.erase_of_not_mem hi]
      have hnone : s.data_vec.getD i none = none := by
        rcases hres : s.data_vec.getD i none with _ | w
        · rfl
        · exact absurd (hi ((hmem i).mpr (by rw [hres]; rfl))) not_false
      have hget : s.data_vec.get ⟨i, hlen⟩ = none := by
        rw [← hnone, List.getD_eq_getElem _ _ hlen]
        rfl
      rw [hget] at hcp
      rw [if_neg (by simp : ¬ ((none : Option T).isSome = true))] at hcp
      simp only [size] at *
      omega

/-- One valid call always succeeds and preserves the invariant. -/
theorem validOp_step (s : sparse_array T) (op : Op T) (hInv : Inv s)
    (hv : validOp s op = true) :
    ∃ s', step s op = some s' ∧ Inv s' := by
  cases op with
  | emplaceOp i v =>
    simp only [validOp, Bool.and_eq_true, decide_eq_true_eq] at hv
    obtain ⟨s', heq, hInv', _, _⟩ := Inv_emplace s i v hInv hv.1 hv.2
    exact ⟨s', by simp [step, heq], hInv'⟩
  | eraseOp i =>
    simp only [validOp, decide_eq_true_eq] at hv
    obtain ⟨s', heq, hInv', _, _⟩ := Inv_erase s i hInv hv
    exact ⟨s', by simp [step, heq], hInv'⟩

/-- Along any valid call sequence, every prefix runs to completion and ends
in a state satisfying the invariant. -/
theorem validOps_run :
    ∀ (ops₁ ops₂ : List (Op T)) (s : sparse_array T), Inv s →
      validOps s (ops₁ ++ ops₂) = true →
      ∃ s', run s ops₁ = some s' ∧ Inv s' := by
  intro ops₁
  induction ops₁ with
  | nil =>
    intro ops₂ s hInv _
    exact ⟨s, rfl, hInv⟩
  | cons op rest ih =>
    intro ops₂ s hInv hv
    simp only [List.cons_append, validOps, Bool.and_eq_true] at hv
    obtain ⟨hv1, hv2⟩ := hv
    obtain ⟨s', heq, hInv'⟩ := validOp_step s op hInv hv1
    rw [heq] at hv2
    simp only [Option.elim_some] at hv2
    obtain ⟨s'', heq2, hInv''⟩ := ih ops₂ s' hInv' hv2
    refine ⟨s'', ?_, hInv''⟩
    rw [run, heq]
    exact heq2

/-! ### `erase_if` and `for_each` -/

/-- Whether the predicate holds of the payload stored in a slot (`false` for
an empty slot). -/
def slotHolds (p : T → Bool) (o : Option T) : Bool :=
  (o.map p).getD false

/-- Unfolding of one `eraseIfGo` step on a live entry. -/
theorem eraseIfGo_cons_some (p : T → Bool) (data : List (Option T)) (i : Nat)
    (rest : List Nat) (v : T) (hv : data.getD i none = some v) :
    eraseIfGo p data (i :: rest) =
      if p v then
        (eraseIfGo p (data.set i none) rest).map
          (fun x : List (Option T) × List Nat × List (Nat × T) =>
            (x.1, x.2.1, (i, v) :: x.2.2))
      else
        (eraseIfGo p data rest).map
          (fun x : List (Option T) × List Nat × List (Nat × T) =>
            (x.1, i :: x.2.1, (i, v) :: x.2.2)) := by
  conv_lhs => unfold eraseIfGo
  rw [hv]
  rfl

/-- Characterisation of the `std::erase_if` pass: under the liveness
invariant it succeeds; the predicate trace lists exactly the live indices,
in order, with their call-time payloads; the kept indices are the
non-matching ones in their original relative order; slots of matching live
indices are reset and all other slots are untouched. -/
theorem eraseIfGo_spec (p : T → Bool) :
    ∀ (alive : List Nat) (data : List (Option T)),
      (∀ i ∈ alive, (data.getD i none).isSome = true) → alive.Nodup →
      ∃ d ks tr, eraseIfGo p data alive = some (d, ks, tr) ∧
        tr.map Prod.fst = alive ∧
        (∀ pr ∈ tr, data.getD pr.1 none = some pr.2) ∧
        ks = alive.filter (fun i => ! slotHolds p (data.getD i none)) ∧
        d.length = data.length ∧
        (∀ j : Nat, d.getD j none =
          if j ∈ alive ∧ slotHolds p (data.getD j none) = true
          then none else data.getD j none) := by
  intro alive
  induction alive with
  | nil =>
    intro data _ _
    exact ⟨data, [], [], rfl, rfl, by simp, by simp, rfl, by simp⟩
  | cons i rest ih =>
    intro data hocc hnd
    have hi : (data.getD i none).isSome = true := hocc i (by simp)
    obtain ⟨v, hv⟩ := Option.isSome_iff_exists.mp hi
    have hirest : i ∉ rest := (List.nodup_cons.mp hnd).1
    have hndrest : rest.Nodup := (List.nodup_cons.mp hnd).2
    have hilen : i < data.length := getD_isSome_lt hi
    by_cases hp : p v = true
    · have hocc2 : ∀ j ∈ rest, (((data.set i none).getD j none).isSome) = true := by
        intro j hj
        rw [getD_set_ne _ (fun h => hirest (by rw [h]; exact hj))]
        exact hocc j (by simp [hj])
      obtain ⟨d, ks, tr, heq, htr, hpay, hks, hdlen, hdat⟩ :=
        ih (data.set i none) hocc2 hndrest
      refine ⟨d, ks, (i, v) :: tr, ?_, ?_, ?_, ?_, ?_, ?_⟩
      · rw [eraseIfGo_cons_some p data i rest v hv, if_pos hp, heq]
        rfl
      · simp [htr]
      · intro pr hpr
        rcases List.mem_cons.mp hpr with hh | hh
        · rw [hh, hv]
        · have hfst : pr.1 ∈ rest := by
            rw [← htr]
            exact List.mem_map_of_mem Prod.fst hh
          have hh2 := hpay pr hh
          rw [getD_set_ne _ (fun h => hirest (by rw [h]; exact hfst))] at hh2
          exact hh2
      · rw [List.filter_cons_of_neg (by simp only [hv]; simp [slotHolds, hp])]
        rw [hks]
        apply List.filter_congr
        intro j hj
        rw [getD_set_ne _ (fun h => hirest (by rw [h]; exact hj))]
      · rw [hdlen, List.length_set]
      · intro j
        rw [hdat j]
        by_cases hji : j = i
        · subst hji
          rw [getD_set_self _ hilen]
          have hmatch : slotHolds p (data.getD j none) = true := by
            rw [hv]
            simpa [slotHolds] using hp
          rw [hmatch]
          simp [hirest, slotHolds]
        · rw [getD_set_ne _ (fun h => hji h.symm)]
          simp only [List.mem_cons, hji, false_or]
    · obtain ⟨d, ks, tr, heq, htr, hpay, hks, hdlen, hdat⟩ := ih data
        (fun j hj => hocc j (by simp [hj])) hndrest
      refine ⟨d, i :: ks, (i, v) :: tr, ?_, ?_, ?_, ?_, ?_, ?_⟩
      · rw [eraseIfGo_cons_some p data i rest v hv, if_neg (by simp [hp]), heq]
        rfl
      · simp [htr]
      · intro pr hpr
        rcases List.mem_cons.mp hpr with hh | hh
        · rw [hh, hv]
        · exact hpay pr hh
      · have hpv : p v = false := by
          cases hb : p v
          · rfl
          · exact absurd hb hp
        rw [List.filter_cons_of_pos (by simp only [hv]; simp [slotHolds, hpv])]
        rw [hks]
      · exact hdlen
      · intro j
        rw [hdat j]
        by_cases hji : j = i
        · subst hji
          have hnomatch : slotHolds p (data.getD j none) = false := by
            rw [hv]
            show p v = false
            cases hb : p v
            · rfl
            · exact absurd hb hp
          rw [hnomatch]
          simp
        · simp only [List.mem_cons, hji, false_or]

/-- Unfolding of one `forEachGo` step on a live entry. -/
theorem forEachGo_cons_some (f : T → Nat → T) (data : List (Option T)) (i : Nat)
    (rest : List Nat) (v : T) (hv : data.getD i none = some v) :
    forEachGo f data (i :: rest) =
      (forEachGo f (data.set i (some (f v i))) rest).map
        (fun x : List (Option T) × List (T × Nat) => (x.1, (v, i) :: x.2)) := by
  conv_lhs => unfold forEachGo
  rw [hv]

/-- Characterisation of the `for_each` loop: under occupancy of all live
slots it succeeds, visits exactly the entries of `alive_vec` in order, and
(when the live list is duplicate-free) each visited payload is the pre-call
slot content. -/
theorem forEachGo_spec (f : T → Nat → T) :
    ∀ (alive : List Nat) (data : List (Option T)),
      (∀ i ∈ alive, (data.getD i none).isSome = true) →
      ∃ d tr, forEachGo f data alive = some (d, tr) ∧
        tr.map Prod.snd = alive ∧
        (alive.Nodup → ∀ pr ∈ tr, data.getD pr.2 none = some pr.1) := by
  intro alive
  induction alive with
  | nil =>
    intro data _
    exact ⟨data, [], rfl, rfl, by simp⟩
  | cons i rest ih =>
    intro data hocc
    have hi : (data.getD i none).isSome = true := hocc i (by simp)
    obtain ⟨v, hv⟩ := Option.isSome_iff_exists.mp hi
    have hilen : i < data.length := getD_isSome_lt hi
    have hocc2 : ∀ j ∈ rest, (((data.set i (some (f v i))).getD j none).isSome) = true := by
      intro j hj
      by_cases hji : j = i
      · subst hji
        rw [getD_set_self _ hilen]
        rfl
      · rw [getD_set_ne _ (fun h => hji h.symm)]
        exact hocc j (by simp [hj])
    obtain ⟨d, tr, heq, htr, hpay⟩ := ih (data.set i (some (f v i))) hocc2
    refine ⟨d, (v, i) :: tr, ?_, ?_, ?_⟩
    · rw [forEachGo_cons_some f data i rest v hv, heq]
      rfl
    · simp [htr]
    · intro hnd pr hpr
      have hirest : i ∉ rest := (List.nodup_cons.mp hnd).1
      rcases List.mem_cons.mp hpr with hh | hh
      · rw [hh, hv]
      · have hsnd : pr.2 ∈ rest := by
          rw [← htr]
          exact List.mem_map_of_mem Prod.snd hh
        have hh2 := hpay (List.nodup_cons.mp hnd).2 pr hh
        rw [getD_set_ne _ (fun h => hirest (by rw [h]; exact hsnd))] at hh2
        exact hh2

/-! ### `next_empty_index` -/

/-- The scan returns `none` exactly when every scanned slot is occupied. -/
theorem findFirstEmpty_none_iff (l : List (Option T)) :
    ∀ acc : Nat, findFirstEmpty l acc = none ↔ ∀ o ∈ l, o.isSome = true := by
  induction l with
  | nil => intro acc; simp [findFirstEmpty]
  | cons a rest ih =>
    intro acc
    cases a with
    | none => simp [findFirstEmpty]
    | some w => simp [findFirstEmpty, ih (acc + 1)]

/-- A successful scan returns the offset of the first empty slot. -/
theorem findFirstEmpty_some (l : List (Option T)) :
    ∀ (acc r : Nat), findFirstEmpty l acc = some r →
      ∃ i : Nat, r = acc + i ∧ i < l.length ∧ l.getD i none = none ∧
        ∀ q : Nat, q < i → (l.getD q none).isSome = true := by
  induction l with
  | nil => intro acc r h; exact absurd h (by simp [findFirstEmpty])
  | cons a rest ih =>
    intro acc r h
    cases a with
    | none =>
      refine ⟨0, ?_, by simp, rfl, by omega⟩
      simpa [findFirstEmpty] using h.symm
    | some w =>
      obtain ⟨i, hr, hlen, hempty, hbefore⟩ := ih (acc + 1) r (by simpa [findFirstEmpty] using h)
      refine ⟨i + 1, by omega, by simp [hlen], by simpa using hempty, ?_⟩
      intro q hq
      cases q with
      | zero => rfl
      | succ q =>
        rw [List.getD_cons_succ]
        exact hbefore q (by omega)

end sparse_array

end Gef

open Gef Gef.sparse_array

/-! ## The claims -/

/-- C10: on a default-constructed store, `size()` and `capacity()` are 0 and
`next_empty_index()` returns no value (the `size() == capacity()` branch). -/
theorem claim_C10 (T : Type) :
    (init : sparse_array T).size = 0 ∧
    (init : sparse_array T).capacity = 0 ∧
    (init : sparse_array T).next_empty_index = none :=
  ⟨rfl, rfl, rfl⟩

/-- C3 (amended): `next_empty_index()` returns no value exactly when
`size() == capacity()` or every slot is occupied; whenever it returns an
index, that index is an empty slot and every lower-numbered slot is
occupied (deterministic lowest-empty result). -/
theorem claim_C3 {T : Type} (s : sparse_array T) :
    (s.next_empty_index = none ↔
      (s.size = s.capacity ∨ ∀ o ∈ s.data_vec, o.isSome = true)) ∧
    (∀ r : Nat, s.next_empty_index = some r →
      r < s.data_vec.length ∧ s.data_vec.getD r none = none ∧
      ∀ q : Nat, q < r → (s.data_vec.getD q none).isSome = true) := by
  constructor
  · unfold next_empty_index
    by_cases h : s.size = s.capacity
    · simp [h]
    · rw [if_neg h, findFirstEmpty_none_iff]
      constructor
      · intro hall
        exact Or.inr hall
      · rintro (hc | hall)
        · exact absurd hc h
        · exact hall
  · intro r hr
    unfold next_empty_index at hr
    by_cases h : s.size = s.capacity
    · rw [if_pos h] at hr
      exact absurd hr (by simp)
    · rw [if_neg h] at hr
      obtain ⟨i, hri, hlen, hempty, hbefore⟩ := findFirstEmpty_some s.data_vec 0 r hr
      have hr0 : r = i := by omega
      subst hr0
      exact ⟨hlen, hempty, hbefore⟩

/-- C3 as stated is false: after `resize(2)` then `resize(1)` and filling
slot 0, `next_empty_index()` returns no value although
`size() = 1 ≠ 2 = capacity()` (every slot is occupied while the live-index
reservation is larger than the slot array). -/
theorem claim_C3_counterexample :
    (((initSized 2).resize 1).emplace_at 0 7).map
        (fun q : sparse_array Nat × Nat =>
          (q.1.next_empty_index, q.1.size, q.1.capacity))
      = some (none, 1, 2) := by
  decide

/-- Witness for C3 at a concrete store: the scan returns slot 1, the lowest
empty slot. -/
theorem claim_C3_witness :
    ((⟨[some 3, none, some 4], [0, 2], 3⟩ : sparse_array Nat).next_empty_index
        = some 1) ∧
    (1 < ([some 3, none, some 4] : List (Option Nat)).length ∧
      ([some 3, none, some 4] : List (Option Nat)).getD 1 none = none ∧
      ∀ q : Nat, q < 1 →
        (([some 3, none, some 4] : List (Option Nat)).getD q none).isSome = true) := by
  refine ⟨by decide, ?_⟩
  exact (claim_C3 (⟨[some 3, none, some 4], [0, 2], 3⟩ : sparse_array Nat)).2 1 (by decide)

/-- C5: `emplace_at(index, v)` appends `index` to the live list
unconditionally (so a second emplace on the same occupied index inserts it
twice), writes the payload through the optional's set (destroy-then-
construct) semantics, and returns the newly constructed payload. -/
theorem claim_C5 {T : Type} (s : sparse_array T) (index : Nat) (v w : T)
    (hlen : index < s.data_vec.length) :
    ∃ s1 : sparse_array T,
      s.emplace_at index v = some (s1, v) ∧
      s1.alive_vec = s.alive_vec ++ [index] ∧
      s1.alive_vec.count index = s.alive_vec.count index + 1 ∧
      s1.data_vec = s.data_vec.set index (opt_set (s.data_vec.getD index none) v) ∧
      s1.at? index = some v ∧
      ∃ s2 : sparse_array T,
        s1.emplace_at index w = some (s2, w) ∧
        s2.alive_vec = (s.alive_vec ++ [index]) ++ [index] ∧
        s2.alive_vec.count index = s.alive_vec.count index + 2 := by
  unfold emplace_at
  rw [if_pos hlen]
  refine ⟨_, rfl, rfl, ?_, rfl, ?_, ?_⟩
  · simp [List.count_append]
  · show at? { data_vec := s.data_vec.set index (opt_set (s.data_vec.getD index none) v)
               alive_vec := s.alive_vec ++ [index]
               alive_cap := pushCap s.alive_vec.length s.alive_cap } index = some v
    unfold at?
    exact getD_set_self _ hlen
  · rw [if_pos (by simpa using hlen)]
    refine ⟨_, rfl, rfl, ?_⟩
    simp [List.count_append]

/-- Witness for C5 at a concrete store. -/
theorem claim_C5_witness :
    ∃ s1 : sparse_array Nat,
      (⟨[none, some 9], [1], 2⟩ : sparse_array Nat).emplace_at 0 7 = some (s1, 7) ∧
      s1.alive_vec = [1] ++ [0] ∧
      s1.alive_vec.count 0 = ([1] : List Nat).count 0 + 1 ∧
      s1.data_vec = ([none, some 9] : List (Option Nat)).set 0
        (opt_set (([none, some 9] : List (Option Nat)).getD 0 none) 7) ∧
      s1.at? 0 = some 7 ∧
      ∃ s2 : sparse_array Nat,
        s1.emplace_at 0 8 = some (s2, 8) ∧
        s2.alive_vec = ([1] ++ [0]) ++ [0] ∧
        s2.alive_vec.count 0 = ([1] : List Nat).count 0 + 2 :=
  claim_C5 (⟨[none, some 9], [1], 2⟩ : sparse_array Nat) 0 7 8 (by decide)

/-- C2 (amended): `erase_at(index)` scans the live list; when `index`
occurs there at most once it removes exactly that occurrence (a no-op on
the list when absent) and then destroys the payload at `slots[index]`,
marking the slot empty; the underlying reset is idempotent.  (When `index`
is duplicated, the scan is NOT limited to one occurrence: see the
counterexample.) -/
theorem claim_C2 {T : Type} (s : sparse_array T) (index : Nat)
    (hc : s.alive_vec.count index ≤ 1) (hlen : index < s.data_vec.length) :
    ∃ s1 : sparse_array T,
      s.erase_at index = some s1 ∧
      s1.alive_vec = s.alive_vec.erase index ∧
      s1.data_vec = s.data_vec.set index (opt_reset (s.data_vec.getD index none)) ∧
      (index ∉ s.alive_vec → s1.alive_vec = s.alive_vec) ∧
      s1.at? index = none ∧
      opt_reset (opt_reset (s.data_vec.getD index none))
        = opt_reset (s.data_vec.getD index none) := by
  refine ⟨_, erase_at_eq s index hc hlen, rfl, rfl, ?_, ?_, rfl⟩
  · intro hni
    show s.alive_vec.erase index = s.alive_vec
    exact List.erase_of_not_mem hni
  · show at? { data_vec := s.data_vec.set index none
               alive_vec := s.alive_vec.erase index
               alive_cap := s.alive_cap } index = none
    unfold at?
    exact getD_set_self _ hlen

/-- C2 as stated is false: on the store reached by the emplace duplication
hazard (live list `[0, 1, 0, 2]`), `erase_at(0)` removes BOTH occurrences
of 0 from the live list, not only one. -/
theorem claim_C2_counterexample :
    (run (initSized 3) [Op.emplaceOp 0 10, Op.emplaceOp 1 11,
        Op.emplaceOp 0 12, Op.emplaceOp 2 13]
      = some (⟨[some 12, some 11, some 13], [0, 1, 0, 2], 6⟩ : sparse_array Nat)) ∧
    ((⟨[some 12, some 11, some 13], [0, 1, 0, 2], 6⟩ : sparse_array Nat).alive_vec.count 0
      = 2) ∧
    (((⟨[some 12, some 11, some 13], [0, 1, 0, 2], 6⟩ : sparse_array Nat).erase_at 0).map
        (fun s1 => s1.alive_vec) = some [1, 2]) := by
  refine ⟨by decide, by decide, by decide⟩

/-- Witness for C2 at a concrete store. -/
theorem claim_C2_witness :
    ∃ s1 : sparse_array Nat,
      (⟨[some 5, some 6], [1, 0], 2⟩ : sparse_array Nat).erase_at 0 = some s1 ∧
      s1.alive_vec = ([1, 0] : List Nat).erase 0 ∧
      s1.data_vec = ([some 5, some 6] : List (Option Nat)).set 0
        (opt_reset (([some 5, some 6] : List (Option Nat)).getD 0 none)) ∧
      (0 ∉ ([1, 0] : List Nat) → s1.alive_vec = [1, 0]) ∧
      s1.at? 0 = none ∧
      opt_reset (opt_reset (([some 5, some 6] : List (Option Nat)).getD 0 none))
        = opt_reset (([some 5, some 6] : List (Option Nat)).getD 0 none) :=
  claim_C2 (⟨[some 5, some 6], [1, 0], 2⟩ : sparse_array Nat) 0 (by decide) (by decide)

/-- Helper: counting the complement of a Boolean predicate. -/
theorem countP_bnot {α : Type} (m : α → Bool) (l : List α) :
    l.countP (fun i => ! m i) + l.countP m = l.length := by
  induction l with
  | nil => rfl
  | cons a l ih =>
    rw [List.countP_cons, List.countP_cons, List.length_cons]
    cases h : m a <;> simp [h] <;> omega

/-- C1: along every valid call sequence (in-capacity indices, `emplace_at`
only on indices not currently live) from an empty store, every prefix runs
to a state where the live list is duplicate-free, every listed index is an
occupied slot, every occupied slot's index is listed exactly once, and
`size()` equals the number of occupied slots. -/
theorem claim_C1 {T : Type} (c : Nat) (ops1 ops2 : List (Op T))
    (h : validOps (initSized c) (ops1 ++ ops2) = true) :
    ∃ s1 : sparse_array T,
      run (initSized c) ops1 = some s1 ∧
      s1.alive_vec.Nodup ∧
      (∀ i : Nat, i ∈ s1.alive_vec → (s1.data_vec.getD i none).isSome = true) ∧
      (∀ i : Nat, (s1.data_vec.getD i none).isSome = true → s1.alive_vec.count i = 1) ∧
      s1.size = s1.data_vec.countP (fun o => o.isSome) := by
  obtain ⟨s1, hrun, hInv⟩ := validOps_run ops1 ops2 (initSized c) (Inv_initSized c) h
  obtain ⟨hnd, hmem, hcnt⟩ := hInv
  exact ⟨s1, hrun, hnd, fun i hi => (hmem i).mp hi,
    fun i hi => List.count_eq_one_of_mem hnd ((hmem i).mpr hi), hcnt⟩

/-- Witness for C1 on a concrete valid call sequence. -/
theorem claim_C1_witness :
    ∃ s1 : sparse_array Nat,
      run (initSized 3) [Op.emplaceOp 0 10, Op.emplaceOp 2 20, Op.eraseOp 0] = some s1 ∧
      s1.alive_vec.Nodup ∧
      (∀ i : Nat, i ∈ s1.alive_vec → (s1.data_vec.getD i none).isSome = true) ∧
      (∀ i : Nat, (s1.data_vec.getD i none).isSome = true → s1.alive_vec.count i = 1) ∧
      s1.size = s1.data_vec.countP (fun o => o.isSome) :=
  claim_C1 3 [Op.emplaceOp 0 10, Op.emplaceOp 2 20, Op.eraseOp 0]
    [Op.emplaceOp 0 30] (by decide)

/-- C4: `erase_if(p)` evaluates `p` exactly once per index live at call
begin, in live-list order, on the call-time payloads; it removes exactly
the matching live elements (resetting their slots, leaving other slots
untouched), keeps the rest in their original relative order, and decrements
`size()` by the match count. -/
theorem claim_C4 {T : Type} (s : sparse_array T) (p : T → Bool)
    (hocc : ∀ i ∈ s.alive_vec, (s.data_vec.getD i none).isSome = true)
    (hnd : s.alive_vec.Nodup) :
    ∃ (s1 : sparse_array T) (tr : List (Nat × T)),
      s.erase_if p = some (s1, tr) ∧
      tr.map Prod.fst = s.alive_vec ∧
      (∀ pr ∈ tr, s.data_vec.getD pr.1 none = some pr.2) ∧
      s1.alive_vec = s.alive_vec.filter
        (fun i => ! slotHolds p (s.data_vec.getD i none)) ∧
      s1.size = s.size - s.alive_vec.countP
        (fun i => slotHolds p (s.data_vec.getD i none)) ∧
      (∀ j : Nat, s1.data_vec.getD j none =
        if j ∈ s.alive_vec ∧ slotHolds p (s.data_vec.getD j none) = true
        then none else s.data_vec.getD j none) ∧
      s1.capacity = s.capacity := by
  obtain ⟨d, ks, tr, heq, htr, hpay, hks, hdlen, hdat⟩ :=
    eraseIfGo_spec p s.alive_vec s.data_vec hocc hnd
  refine ⟨⟨d, ks, s.alive_cap⟩, tr, ?_, htr, hpay, hks, ?_, hdat, rfl⟩
  · unfold erase_if
    rw [heq]
  · show ks.length = s.alive_vec.length - _
    rw [hks, ← List.countP_eq_length_filter]
    have hsum := countP_bnot (fun i => slotHolds p (s.data_vec.getD i none)) s.alive_vec
    omega

/-- Witness for C4 at a concrete store and predicate (erase even values). -/
theorem claim_C4_witness :
    ∃ (s1 : sparse_array Nat) (tr : List (Nat × Nat)),
      (⟨[some 1, some 2, some 3, some 4], [2, 0, 3, 1], 4⟩ : sparse_array Nat).erase_if
          (fun v => decide (v % 2 = 0)) = some (s1, tr) ∧
      tr.map Prod.fst = ([2, 0, 3, 1] : List Nat) ∧
      (∀ pr ∈ tr,
        ([some 1, some 2, some 3, some 4] : List (Option Nat)).getD pr.1 none = some pr.2) ∧
      s1.alive_vec = ([2, 0, 3, 1] : List Nat).filter
        (fun i => ! slotHolds (fun v => decide (v % 2 = 0))
          (([some 1, some 2, some 3, some 4] : List (Option Nat)).getD i none)) ∧
      s1.size = ([2, 0, 3, 1] : List Nat).length - ([2, 0, 3, 1] : List Nat).countP
        (fun i => slotHolds (fun v => decide (v % 2 = 0))
          (([some 1, some 2, some 3, some 4] : List (Option Nat)).getD i none)) ∧
      (∀ j : Nat, s1.data_vec.getD j none =
        if j ∈ ([2, 0, 3, 1] : List Nat) ∧ slotHolds (fun v => decide (v % 2 = 0))
            (([some 1, some 2, some 3, some 4] : List (Option Nat)).getD j none) = true
        then none else ([some 1, some 2, some 3, some 4] : List (Option Nat)).getD j none) ∧
      s1.capacity = (⟨[some 1, some 2, some 3, some 4], [2, 0, 3, 1], 4⟩ : sparse_array Nat).capacity :=
  claim_C4 (⟨[some 1, some 2, some 3, some 4], [2, 0, 3, 1], 4⟩ : sparse_array Nat)
    (fun v => decide (v % 2 = 0)) (by decide) (by decide)

/-- C6: round-trip: `emplace_at(i, v)` then `at(i)` yields `v`; after
`erase_at(i)`, a subsequent `emplace_at(i, w)` then `at(i)` yields `w`
(for an in-capacity index that is not currently live, so the intermediate
erase is well defined). -/
theorem claim_C6 {T : Type} (s : sparse_array T) (i : Nat) (v w : T)
    (hlen : i < s.data_vec.length) (hfresh : i ∉ s.alive_vec) :
    ∃ (s1 s2 s3 : sparse_array T),
      s.emplace_at i v = some (s1, v) ∧ s1.at? i = some v ∧
      s1.erase_at i = some s2 ∧
      s2.emplace_at i w = some (s3, w) ∧ s3.at? i = some w := by
  have h1 : s.emplace_at i v = some
      (⟨s.data_vec.set i (some v), s.alive_vec ++ [i],
        pushCap s.alive_vec.length s.alive_cap⟩, v) := by
    unfold emplace_at
    rw [if_pos hlen]
    rfl
  have hc1 : (s.alive_vec ++ [i]).count i ≤ 1 := by
    rw [List.count_append]
    have hz : s.alive_vec.count i = 0 := List.count_eq_zero.mpr hfresh
    simp [hz]
  have h2 := erase_at_eq
    (⟨s.data_vec.set i (some v), s.alive_vec ++ [i],
      pushCap s.alive_vec.length s.alive_cap⟩ : sparse_array T) i hc1 (by simpa using hlen)
  have h3 : (⟨(s.data_vec.set i (some v)).set i none, (s.alive_vec ++ [i]).erase i,
      pushCap s.alive_vec.length s.alive_cap⟩ : sparse_array T).emplace_at i w = some
      (⟨((s.data_vec.set i (some v)).set i none).set i (some w),
        (s.alive_vec ++ [i]).erase i ++ [i],
        pushCap ((s.alive_vec ++ [i]).erase i).length
          (pushCap s.alive_vec.length s.alive_cap)⟩, w) := by
    unfold emplace_at
    rw [if_pos (by simpa using hlen)]
    rfl
  refine ⟨_, _, _, h1, ?_, h2, h3, ?_⟩
  · show (s.data_vec.set i (some v)).getD i none = some v
    exact getD_set_self _ hlen
  · show (((s.data_vec.set i (some v)).set i none).set i (some w)).getD i none = some w
    apply getD_set_self
    simpa using hlen

/-- Witness for C6 at a concrete store. -/
theorem claim_C6_witness :
    ∃ (s1 s2 s3 : sparse_array Nat),
      (⟨[none, some 4], [1], 2⟩ : sparse_array Nat).emplace_at 0 7 = some (s1, 7) ∧
      s1.at? 0 = some 7 ∧
      s1.erase_at 0 = some s2 ∧
      s2.emplace_at 0 9 = some (s3, 9) ∧ s3.at? 0 = some 9 :=
  claim_C6 (⟨[none, some 4], [1], 2⟩ : sparse_array Nat) 0 7 9 (by decide) (by decide)

/-- C7: `clear()` empties the live list, destroys every payload, and keeps
both the slot count and the reported capacity; afterwards `size() = 0` and,
for a store with at least one slot (and a coherent reservation, which every
reachable store has), `next_empty_index()` returns slot 0. -/
theorem claim_C7 {T : Type} (s : sparse_array T)
    (hlen : s.data_vec.length ≠ 0) (hcap : s.data_vec.length ≤ s.capacity) :
    s.clear.alive_vec = [] ∧
    s.clear.size = 0 ∧
    (∀ j : Nat, s.clear.data_vec.getD j none = none) ∧
    s.clear.capacity = s.capacity ∧
    s.clear.data_vec.length = s.data_vec.length ∧
    s.clear.next_empty_index = some 0 := by
  have hmap : ∀ j : Nat, (s.data_vec.map opt_reset).getD j none = none := by
    intro j
    rcases Nat.lt_or_ge j s.data_vec.length with hj | hj
    · rw [List.getD_eq_getElem _ _ (by simpa using hj)]
      simp [opt_reset]
    · rw [List.getD_eq_default _ _ (by simpa using hj)]
  have hcap2 : s.data_vec.length ≤ s.alive_cap := hcap
  have hne : ¬ (s.clear.size = s.clear.capacity) := by
    show ¬ ((0 : Nat) = s.alive_cap)
    omega
  refine ⟨rfl, rfl, hmap, rfl, by simp [clear], ?_⟩
  unfold next_empty_index
  rw [if_neg hne]
  show findFirstEmpty (s.data_vec.map opt_reset) 0 = some 0
  have hnil : s.data_vec ≠ [] := by
    intro hcon
    rw [hcon] at hlen
    exact hlen rfl
  obtain ⟨a, rest, hd⟩ := List.exists_cons_of_ne_nil hnil
  rw [hd]
  rfl

/-- Witness for C7 at a concrete store. -/
theorem claim_C7_witness :
    (⟨[some 1, none], [0], 2⟩ : sparse_array Nat).clear.alive_vec = [] ∧
    (⟨[some 1, none], [0], 2⟩ : sparse_array Nat).clear.size = 0 ∧
    (∀ j : Nat,
      (⟨[some 1, none], [0], 2⟩ : sparse_array Nat).clear.data_vec.getD j none = none) ∧
    (⟨[some 1, none], [0], 2⟩ : sparse_array Nat).clear.capacity
      = (⟨[some 1, none], [0], 2⟩ : sparse_array Nat).capacity ∧
    (⟨[some 1, none], [0], 2⟩ : sparse_array Nat).clear.data_vec.length
      = ([some 1, none] : List (Option Nat)).length ∧
    (⟨[some 1, none], [0], 2⟩ : sparse_array Nat).clear.next_empty_index = some 0 :=
  claim_C7 (⟨[some 1, none], [0], 2⟩ : sparse_array Nat) (by decide) (by decide)

/-- C8: frame property: an `emplace_at` or a completed `erase_at` targeting
slot `k` leaves the payload and the live status (even the live-list count)
of any other slot `j` unchanged, and a growing `resize` preserves all slot
contents below the old slot count and leaves the live list untouched. -/
theorem claim_C8 {T : Type} (s : sparse_array T) (k j : Nat) (v : T)
    (hjk : j ≠ k) :
    (∀ (s1 : sparse_array T) (r : T), s.emplace_at k v = some (s1, r) →
      s1.data_vec.getD j none = s.data_vec.getD j none ∧
      s1.alive_vec.count j = s.alive_vec.count j ∧
      (j ∈ s1.alive_vec ↔ j ∈ s.alive_vec)) ∧
    (∀ s1 : sparse_array T, s.erase_at k = some s1 →
      s1.data_vec.getD j none = s.data_vec.getD j none ∧
      s1.alive_vec.count j = s.alive_vec.count j ∧
      (j ∈ s1.alive_vec ↔ j ∈ s.alive_vec)) ∧
    (∀ n : Nat, s.data_vec.length ≤ n →
      (s.resize n).alive_vec = s.alive_vec ∧
      (s.resize n).data_vec.length = n ∧
      ∀ q : Nat, q < s.data_vec.length →
        (s.resize n).data_vec.getD q none = s.data_vec.getD q none) := by
  refine ⟨?_, ?_, ?_⟩
  · intro s1 r h
    unfold emplace_at at h
    by_cases hk : k < s.data_vec.length
    · rw [if_pos hk] at h
      simp only [Option.some.injEq, Prod.mk.injEq] at h
      obtain ⟨hs1, hr⟩ := h
      rw [← hs1]
      refine ⟨getD_set_ne _ (fun hh => hjk hh.symm), ?_, ?_⟩
      · show (s.alive_vec ++ [k]).count j = _
        rw [List.count_append]
        simp [List.count_singleton, hjk]
      · show j ∈ s.alive_vec ++ [k] ↔ _
        simp [hjk]
    · rw [if_neg hk] at h
      exact absurd h (by simp)
  · intro s1 h
    obtain ⟨hcnt, hdata, _⟩ := erase_at_frame s k j hjk s1 h
    refine ⟨hdata, hcnt, ?_⟩
    constructor
    · intro hm
      exact List.count_pos_iff.mp (by rw [← hcnt]; exact List.count_pos_iff.mpr hm)
    · intro hm
      exact List.count_pos_iff.mp (by rw [hcnt]; exact List.count_pos_iff.mpr hm)
  · intro n hn
    refine ⟨rfl, ?_, ?_⟩
    · show (listResize s.data_vec n).length = n
      unfold listResize
      simp
      omega
    · intro q hq
      show (listResize s.data_vec n).getD q none = _
      unfold listResize
      rw [List.take_of_length_le hn, List.getD_append _ _ _ _ hq]

/-- Witness for C8 at a concrete store. -/
theorem claim_C8_witness :
    (∀ (s1 : sparse_array Nat) (r : Nat),
      (⟨[some 1, some 2], [0, 1], 2⟩ : sparse_array Nat).emplace_at 0 5 = some (s1, r) →
      s1.data_vec.getD 1 none = ([some 1, some 2] : List (Option Nat)).getD 1 none ∧
      s1.alive_vec.count 1 = ([0, 1] : List Nat).count 1 ∧
      (1 ∈ s1.alive_vec ↔ 1 ∈ ([0, 1] : List Nat))) ∧
    (∀ s1 : sparse_array Nat,
      (⟨[some 1, some 2], [0, 1], 2⟩ : sparse_array Nat).erase_at 0 = some s1 →
      s1.data_vec.getD 1 none = ([some 1, some 2] : List (Option Nat)).getD 1 none ∧
      s1.alive_vec.count 1 = ([0, 1] : List Nat).count 1 ∧
      (1 ∈ s1.alive_vec ↔ 1 ∈ ([0, 1] : List Nat))) ∧
    (∀ n : Nat, ([some 1, some 2] : List (Option Nat)).length ≤ n →
      ((⟨[some 1, some 2], [0, 1], 2⟩ : sparse_array Nat).resize n).alive_vec
        = ([0, 1] : List Nat) ∧
      ((⟨[some 1, some 2], [0, 1], 2⟩ : sparse_array Nat).resize n).data_vec.length = n ∧
      ∀ q : Nat, q < ([some 1, some 2] : List (Option Nat)).length →
        ((⟨[some 1, some 2], [0, 1], 2⟩ : sparse_array Nat).resize n).data_vec.getD q none
          = ([some 1, some 2] : List (Option Nat)).getD q none) :=
  claim_C8 (⟨[some 1, some 2], [0, 1], 2⟩ : sparse_array Nat) 0 1 5 (by decide)

/-- C9: `for_each(visitor)` invokes the visitor once per live index, with
the current payload, in exactly the order of `live_indices` (insertion
order, not ascending slot order). -/
theorem claim_C9 {T : Type} (s : sparse_array T) (f : T → Nat → T)
    (hocc : ∀ i ∈ s.alive_vec, (s.data_vec.getD i none).isSome = true)
    (hnd : s.alive_vec.Nodup) :
    ∃ (s1 : sparse_array T) (tr : List (T × Nat)),
      s.for_each f = some (s1, tr) ∧
      tr.map Prod.snd = s.alive_vec ∧
      (∀ i ∈ s.alive_vec, (tr.map Prod.snd).count i = 1) ∧
      (∀ pr ∈ tr, s.data_vec.getD pr.2 none = some pr.1) := by
  obtain ⟨d, tr, heq, htr, hpay⟩ := forEachGo_spec f s.alive_vec s.data_vec hocc
  refine ⟨⟨d, s.alive_vec, s.alive_cap⟩, tr, ?_, htr, ?_, hpay hnd⟩
  · unfold for_each
    rw [heq]
  · intro i hi
    rw [htr]
    exact List.count_eq_one_of_mem hnd hi

/-- Witness for C9 at a concrete store (live order [1, 0], not ascending). -/
theorem claim_C9_witness :
    ∃ (s1 : sparse_array Nat) (tr : List (Nat × Nat)),
      (⟨[some 1, some 2], [1, 0], 2⟩ : sparse_array Nat).for_each (fun v i => v + i)
        = some (s1, tr) ∧
      tr.map Prod.snd = ([1, 0] : List Nat) ∧
      (∀ i ∈ ([1, 0] : List Nat), (tr.map Prod.snd).count i = 1) ∧
      (∀ pr ∈ tr, ([some 1, some 2] : List (Option Nat)).getD pr.2 none = some pr.1) :=
  claim_C9 (⟨[some 1, some 2], [1, 0], 2⟩ : sparse_array Nat) (fun v i => v + i)
    (by decide) (by decide)
